import Mathlib

/-!
Verification of the wtf-wikipedia-ast-parser pipeline: a shallow embedding of
the scanner (`compile`), the recursive-descent parser (`parse`), the AST node
model with its plain-text rendering (`toText`), the link reference derivation
(`href`, `site`, `page`, `anchor`), and the tree optimizer (`optimize`),
together with theorems settling the specification claims.

Strings are modelled as `List Char`.  Machine integers do not occur.  The
JavaScript source uses in-place mutation only in `optimize`; it is embedded
functionally (the rebuilt node is returned).
-/

/-! ## Scanner

Embeds `compile` from the parser source.  The JS code repeatedly finds the
leftmost match of the regex `('''''|''''|'''|''|<\/?[bi]>|\[\[|\]\]|\|)` and
fills the gaps between matches with literal-text tokens.  `scanAux` fuses the
two phases: it walks the input left to right, tries the alternatives in the
regex's order at each position (quote runs longest first), and accumulates
unmatched characters in `pending`, flushing them as a text token before each
delimiter and at the end.  `tstart` is the input position where `pending`
began; `pos` is the current position.
-/

inductive TokTy where
  | text | q2 | q3 | q4 | q5 | bOpen | bClose | iOpen | iClose | lOpen | lClose | pipe
deriving DecidableEq, Repr

/-- A scanner token: `type`/`text`/`pos` in the JS source. -/
structure Token where
  ty : TokTy
  text : List Char
  pos : Nat
deriving DecidableEq, Repr

/-- Emit the pending literal-text run as a token (nothing if it is empty). -/
def flushText (tstart : Nat) (pending : List Char) : List Token :=
  if pending.isEmpty then [] else [⟨TokTy.text, pending, tstart⟩]

def scanAux (tstart pos : Nat) (pending : List Char) : List Char → List Token
  | '\'' :: '\'' :: '\'' :: '\'' :: '\'' :: r =>
      flushText tstart pending ++ ⟨TokTy.q5, List.replicate 5 '\'', pos⟩ ::
        scanAux (pos + 5) (pos + 5) [] r
  | '\'' :: '\'' :: '\'' :: '\'' :: r =>
      flushText tstart pending ++ ⟨TokTy.q4, List.replicate 4 '\'', pos⟩ ::
        scanAux (pos + 4) (pos + 4) [] r
  | '\'' :: '\'' :: '\'' :: r =>
      flushText tstart pending ++ ⟨TokTy.q3, List.replicate 3 '\'', pos⟩ ::
        scanAux (pos + 3) (pos + 3) [] r
  | '\'' :: '\'' :: r =>
      flushText tstart pending ++ ⟨TokTy.q2, List.replicate 2 '\'', pos⟩ ::
        scanAux (pos + 2) (pos + 2) [] r
  | '<' :: 'b' :: '>' :: r =>
      flushText tstart pending ++ ⟨TokTy.bOpen, ['<', 'b', '>'], pos⟩ ::
        scanAux (pos + 3) (pos + 3) [] r
  | '<' :: '/' :: 'b' :: '>' :: r =>
      flushText tstart pending ++ ⟨TokTy.bClose, ['<', '/', 'b', '>'], pos⟩ ::
        scanAux (pos + 4) (pos + 4) [] r
  | '<' :: 'i' :: '>' :: r =>
      flushText tstart pending ++ ⟨TokTy.iOpen, ['<', 'i', '>'], pos⟩ ::
        scanAux (pos + 3) (pos + 3) [] r
  | '<' :: '/' :: 'i' :: '>' :: r =>
      flushText tstart pending ++ ⟨TokTy.iClose, ['<', '/', 'i', '>'], pos⟩ ::
        scanAux (pos + 4) (pos + 4) [] r
  | '[' :: '[' :: r =>
      flushText tstart pending ++ ⟨TokTy.lOpen, ['[', '['], pos⟩ ::
        scanAux (pos + 2) (pos + 2) [] r
  | ']' :: ']' :: r =>
      flushText tstart pending ++ ⟨TokTy.lClose, [']', ']'], pos⟩ ::
        scanAux (pos + 2) (pos + 2) [] r
  | '|' :: r =>
      flushText tstart pending ++ ⟨TokTy.pipe, ['|'], pos⟩ ::
        scanAux (pos + 1) (pos + 1) [] r
  | c :: r => scanAux tstart (pos + 1) (pending ++ [c]) r
  | [] => flushText tstart pending

/-- Lexical analysis, `compile(input)` in the source. -/
def compile (input : List Char) : List Token := scanAux 0 0 [] input

/-- Concatenation of the `text` fields of a token sequence. -/
def joinTexts : List Token → List Char
  | [] => []
  | t :: ts => t.text ++ joinTexts ts

/-- The tokens starting at position `p` cover the input contiguously with
non-empty, non-overlapping spans in ascending order. -/
def covers : Nat → List Token → Prop
  | _, [] => True
  | p, t :: ts => t.pos = p ∧ t.text ≠ [] ∧ covers (p + t.text.length) ts

/-! ## AST model

Embeds the node classes of `classes.js`.  `Node` is a closed variant:
`Text` holds a literal string; `Sentence`, `Italic`, `Bold` hold child lists;
`Link` holds a target string plus child list.  `toText` embeds the `toText`
methods: a `Text` returns its string, every container concatenates its
children's renderings (the `transform` helper with the default empty join).
-/

inductive Node where
  | text (s : List Char)
  | sentence (childs : List Node)
  | italic (childs : List Node)
  | bold (childs : List Node)
  | link (target : List Char) (childs : List Node)
deriving Repr

mutual

def toText : Node → List Char
  | Node.text s => s
  | Node.sentence cs => textList cs
  | Node.italic cs => textList cs
  | Node.bold cs => textList cs
  | Node.link _ cs => textList cs

def textList : List Node → List Char
  | [] => []
  | c :: cs => toText c ++ textList cs

end

mutual

/-- Number of nodes in a tree (used as recursion fuel for the optimizer). -/
def nsize : Node → Nat
  | Node.text _ => 1
  | Node.sentence cs => 1 + nsizeL cs
  | Node.italic cs => 1 + nsizeL cs
  | Node.bold cs => 1 + nsizeL cs
  | Node.link _ cs => 1 + nsizeL cs

def nsizeL : List Node → Nat
  | [] => 0
  | c :: cs => nsize c + nsizeL cs

end

/-! ## Parser

Embeds `parse` from the parser source: recursive descent over the token list
with explicit consumption.  The JS mutual loops (`until`, the `[[` handler and
the top-level loop) all advance an index into the token array; here each
function takes the remaining token list and returns the produced nodes
together with the unconsumed remainder.  The mutual recursion is made
structural with a fuel argument; `2 * rest.length + 2` fuel is sufficient
(established by `parseF_congr` below), and the exported wrappers
`parseToken`/`parseUntil`/`parseAll`/`parse` supply exactly that.
-/

/-- Resolution of the accumulated link parts, the tail of the `'[['` parser:
`pipe` records whether a pipe token was seen, `pre` is the target expression,
`post` the display expression. -/
def resolveLink (pipe : Bool) (pre post : List Node) : List Node :=
  -- link without text
  if pipe && post.isEmpty then []
  else
    -- no text for link: `if (!pipe) post = pre`
    let disp := if pipe then post else pre
    -- no link
    if pre.isEmpty then disp
    -- link & text
    else [Node.link (textList pre) disp]

mutual

def parseTokenF : Nat → Token → List Token → List Node × List Token
  | 0, _, rest => ([], rest)
  | fuel + 1, tok, rest =>
    match tok.ty with
    | TokTy.text => ([Node.text tok.text], rest)
    | TokTy.bOpen =>
        let a := parseUntilF fuel TokTy.bClose rest
        (if a.1.isEmpty then [] else [Node.bold a.1], a.2)
    | TokTy.q3 =>
        let a := parseUntilF fuel TokTy.q3 rest
        (if a.1.isEmpty then [] else [Node.bold a.1], a.2)
    | TokTy.q4 =>
        let a := parseUntilF fuel TokTy.q4 rest
        (if a.1.isEmpty then []
         else [Node.bold (Node.text ['\''] :: a.1 ++ [Node.text ['\'']])], a.2)
    | TokTy.q5 =>
        let a := parseUntilF fuel TokTy.q5 rest
        (if a.1.isEmpty then [] else [Node.italic [Node.bold a.1]], a.2)
    | TokTy.iOpen =>
        let a := parseUntilF fuel TokTy.iClose rest
        (if a.1.isEmpty then [] else [Node.italic a.1], a.2)
    | TokTy.q2 =>
        let a := parseUntilF fuel TokTy.q2 rest
        (if a.1.isEmpty then [] else [Node.italic a.1], a.2)
    | TokTy.lOpen =>
        let a := parseLinkF fuel false [] [] rest
        (resolveLink a.1.1 a.1.2.1 a.1.2.2, a.2)
    | _ => ([Node.text tok.text], rest)

def parseUntilF : Nat → TokTy → List Token → List Node × List Token
  | 0, _, rest => ([], rest)
  | _ + 1, _, [] => ([], [])
  | fuel + 1, e, x :: r =>
    if x.ty = e then ([], r)
    else
      let a := parseTokenF fuel x r
      let b := parseUntilF fuel e a.2
      (a.1 ++ b.1, b.2)

def parseLinkF : Nat → Bool → List Node → List Node → List Token →
    (Bool × List Node × List Node) × List Token
  | 0, pipe, pre, post, rest => ((pipe, pre, post), rest)
  | _ + 1, pipe, pre, post, [] => ((pipe, pre, post), [])
  | fuel + 1, pipe, pre, post, x :: r =>
    if x.ty = TokTy.pipe then parseLinkF fuel true pre post r
    else if x.ty = TokTy.lClose then ((pipe, pre, post), r)
    else
      let a := parseTokenF fuel x r
      if pipe then parseLinkF fuel pipe pre (post ++ a.1) a.2
      else parseLinkF fuel pipe (pre ++ a.1) post a.2

def parseAllF : Nat → List Token → List Node
  | 0, _ => []
  | _ + 1, [] => []
  | fuel + 1, tok :: rest =>
    let a := parseTokenF fuel tok rest
    a.1 ++ parseAllF fuel a.2

end

/-- Parse one token, the `parseToken` dispatch of the source. -/
def parseToken (tok : Token) (rest : List Token) : List Node × List Token :=
  parseTokenF (2 * rest.length + 2) tok rest

/-- The `until(end, then)` accumulation loop of the source (without the final
wrap): collect parsed children until a token of kind `e` or exhaustion. -/
def parseUntil (e : TokTy) (rest : List Token) : List Node × List Token :=
  parseUntilF (2 * rest.length + 2) e rest

/-- The top-level parse loop: dispatch every token, flattening the node lists. -/
def parseAll (tokens : List Token) : List Node :=
  parseAllF (2 * tokens.length + 2) tokens

/-- Syntax analysis, `parse(tokens)` in the source: always a `Sentence` root. -/
def parse (tokens : List Token) : Node :=
  Node.sentence (parseAll tokens)

/-! ## Link reference derivation

Embeds the `Link` getters of `classes.js`.  A link target is "external" when
it matches `/^[a-z]+:\/\//`.  `internalLink` prepends `./`, upper-cases the
first character and replaces every space in the remainder by an underscore
(the JS is `'./' + target.substr(0,1).toUpperCase() +
target.substr(1).replace(/ /g, '_')`; `Char.toUpper` models the ASCII part of
`toUpperCase`).  `stripAnchor` embeds `target.replace(/#[^#]*$/, '')`
(remove everything from the last `#` on, if any); `hashTail` embeds
`target.replace(/^[^#]+/, '')` (drop the run of non-`#` characters at the
start).  `linkToJSON` embeds `Link.toJSON`, with `Option` fields standing for
the JS `undefined`-key deletion.
-/

def isLowerAZ (c : Char) : Bool := 'a' ≤ c && c ≤ 'z'

/-- Matches `[a-z]*:\/\/` as a prefix of the remaining characters. -/
def schemeTail : List Char → Bool
  | ':' :: '/' :: '/' :: _ => true
  | c :: r => isLowerAZ c && schemeTail r
  | [] => false

/-- The `isExternal` getter: the target matches `/^[a-z]+:\/\//`. -/
def isExternal : List Char → Bool
  | c :: r => isLowerAZ c && schemeTail r
  | [] => false

/-- `replace(/ /g, '_')`: each space becomes an underscore. -/
def replSpaces : List Char → List Char
  | [] => []
  | c :: r => (if c = ' ' then '_' else c) :: replSpaces r

/-- The `internalLink` helper of `classes.js`. -/
def internalLink (target : List Char) : List Char :=
  '.' :: '/' ::
    (match target with
     | [] => []
     | c :: r => c.toUpper :: replSpaces r)

/-- The `href` getter. -/
def href (target : List Char) : List Char :=
  if isExternal target then target else internalLink target

/-- `target.replace(/#[^#]*$/, '')`: drop the suffix from the last `#` on. -/
def stripAnchor : List Char → List Char
  | [] => []
  | '#' :: r => if r.contains '#' then '#' :: stripAnchor r else []
  | c :: r => c :: stripAnchor r

/-- `target.replace(/^[^#]+/, '')`: the tail starting at the first `#`. -/
def hashTail (target : List Char) : List Char :=
  target.dropWhile (fun c => c ≠ '#')

/-- The `site` getter. -/
def linkSite (target : List Char) : Option (List Char) :=
  if isExternal target then some target else none

/-- The `page` getter (the `|| undefined` maps the empty string to `none`). -/
def linkPage (target : List Char) : Option (List Char) :=
  if isExternal target then none
  else
    let p := stripAnchor target
    if p.isEmpty then none else some p

/-- The `anchor` getter: `tail ? tail.substr(1) : undefined`. -/
def linkAnchor (target : List Char) : Option (List Char) :=
  let tail := hashTail target
  if tail.isEmpty then none else some (tail.drop 1)

/-- The structured summary of one `Link` node (`Link.toJSON`); an `Option`
field is `none` exactly when the JS code deletes the `undefined` key. -/
structure LinkJSON where
  ty : List Char
  text : List Char
  site : Option (List Char)
  page : Option (List Char)
  anchor : Option (List Char)
deriving DecidableEq, Repr

def linkToJSON (target : List Char) (childs : List Node) : LinkJSON :=
  { ty := if isExternal target then
            ['e', 'x', 't', 'e', 'r', 'n', 'a', 'l']
          else
            ['i', 'n', 't', 'e', 'r', 'n', 'a', 'l'],
    text := textList childs,
    site := linkSite target,
    page := linkPage target,
    anchor := linkAnchor target }

/-! ## Optimizer

Embeds `optimize` from the parser source.  `Conf` is the options record
(`optimize_conf` defaults, all true), `Ctx` the propagated context object.
The body is `ast.childs.reduce(flatten).map(optimize).reduce(combine Text)
.reduce(combine Italic).reduce(combine Bold)`; `optChilds` performs exactly
this pipeline with `F` the recursive call at one less fuel.  Fuel `nsize t`
is sufficient because every recursive call operates on a node of strictly
smaller `nsize` (spliced grandchildren, mapped children and freshly merged
nodes are all smaller than the current node).
-/

structure Conf where
  combineTexts : Bool
  combineItalics : Bool
  combineBolds : Bool
  nestedLinks : Bool
  nestedItalics : Bool
  nestedBolds : Bool
deriving DecidableEq, Repr

/-- `optimize_conf`: all flags default to true. -/
def defaultConf : Conf := ⟨true, true, true, true, true, true⟩

structure Ctx where
  link : Bool
  italic : Bool
  bold : Bool
deriving DecidableEq, Repr

/-- The initial context `{}` of the JS source: no flag set. -/
def ctx0 : Ctx := ⟨false, false, false⟩

/-- Child list of a node (empty for `Text`). -/
def childsOf : Node → List Node
  | Node.text _ => []
  | Node.sentence cs => cs
  | Node.italic cs => cs
  | Node.bold cs => cs
  | Node.link _ cs => cs

/-- The flatten condition `(ctx.link && node instanceof Link) || (ctx.italic
&& node instanceof Italic) || (ctx.bold && node instanceof Bold)`. -/
def flagged (ctx : Ctx) : Node → Bool
  | Node.link _ _ => ctx.link
  | Node.italic _ => ctx.italic
  | Node.bold _ => ctx.bold
  | _ => false

/-- One step of the "remove tags inside tags" reduce. -/
def flattenStep (ctx : Ctx) (out : List Node) (node : Node) : List Node :=
  if flagged ctx node then out ++ childsOf node else out ++ [node]

/-- The three `classy` arguments of `_optimize_combine`. -/
inductive CombK where
  | ktext | kitalic | kbold
deriving DecidableEq, Repr

/-- `node instanceof classy`. -/
def isCK : CombK → Node → Bool
  | CombK.ktext, Node.text _ => true
  | CombK.kitalic, Node.italic _ => true
  | CombK.kbold, Node.bold _ => true
  | _, _ => false

/-- The `combine` callbacks: concatenate texts resp. child lists.  (The
final catch-all is unreachable behind the `isCK` guards.) -/
def combK : CombK → Node → Node → Node
  | CombK.ktext, Node.text a, Node.text b => Node.text (a ++ b)
  | CombK.kitalic, Node.italic a, Node.italic b => Node.italic (a ++ b)
  | CombK.kbold, Node.bold a, Node.bold b => Node.bold (a ++ b)
  | _, a, _ => a

/-- One step of `_optimize_combine(conf, ctx, classy, combine)`: `skip` is the
disabled-flag check, `F` the recursive `optimize(..., conf, ctx)` call. -/
def combineStep (F : Node → Node) (skip : Bool) (k : CombK)
    (out : List Node) (node : Node) : List Node :=
  if skip then out ++ [node]
  else
    match out.getLast? with
    | some last =>
        if isCK k last && isCK k node then
          out.dropLast ++ [F (combK k last node)]
        else out ++ [node]
    | none => out ++ [node]

/-- Context update on entering a node (the three `if (conf.nested...)`
assignments). -/
def ctxEnter (conf : Conf) (ctx : Ctx) : Node → Ctx
  | Node.link _ _ => if conf.nestedLinks then { ctx with link := true } else ctx
  | Node.italic _ => if conf.nestedItalics then { ctx with italic := true } else ctx
  | Node.bold _ => if conf.nestedBolds then { ctx with bold := true } else ctx
  | _ => ctx

/-- The child-list pipeline of `optimize`: flatten, recurse, then merge
adjacent texts, italics and bolds. -/
def optChilds (F : Node → Node) (conf : Conf) (ctx : Ctx) (cs : List Node) :
    List Node :=
  ((((cs.foldl (flattenStep ctx) []).map F).foldl
      (combineStep F (!conf.combineTexts) CombK.ktext) []).foldl
      (combineStep F (!conf.combineItalics) CombK.kitalic) []).foldl
      (combineStep F (!conf.combineBolds) CombK.kbold) []

def optimizeF : Nat → Conf → Ctx → Node → Node
  | 0, _, _, ast => ast
  | fuel + 1, conf, ctx, ast =>
    match ast with
    | Node.text s => Node.text s
    | Node.sentence cs =>
        Node.sentence (optChilds (optimizeF fuel conf ctx) conf ctx cs)
    | Node.italic cs =>
        let c := ctxEnter conf ctx (Node.italic cs)
        Node.italic (optChilds (optimizeF fuel conf c) conf c cs)
    | Node.bold cs =>
        let c := ctxEnter conf ctx (Node.bold cs)
        Node.bold (optChilds (optimizeF fuel conf c) conf c cs)
    | Node.link tg cs =>
        let c := ctxEnter conf ctx (Node.link tg cs)
        Node.link tg (optChilds (optimizeF fuel conf c) conf c cs)

/-- `optimize(ast)` with the default configuration and empty context. -/
def optimize (ast : Node) : Node :=
  optimizeF (nsize ast) defaultConf ctx0 ast

/-! ## Spec-side definitions

Two definitions written from the wording of the claims (not from the source),
used to compare the source behaviour against the claimed behaviour.
-/

/-- Modelled from claim C1's five ordered link-resolution rules: (1) pipe
seen and display empty, emit nothing; (2) without a pipe the display equals
the target nodes; (3) the target string concatenates the plain-text rendering
of the target nodes; (4) empty target, emit the display unwrapped; (5)
otherwise exactly one Link node. -/
def linkRulesClaim (pipe : Bool) (pre post : List Node) : List Node :=
  if pipe = true ∧ post.length = 0 then []
  else
    let display := if pipe then post else pre
    let target := textList pre
    if pre.length = 0 then display
    else [Node.link target display]

/-- Modelled from the spec wording behind claim C6: for an internal target
the reference upper-cases the first character and replaces spaces with
underscores only in the portion before any `#`, appending the original
`#anchor` suffix unchanged. -/
def hrefClaimC6 (target : List Char) : List Char :=
  '.' :: '/' ::
    ((match target.takeWhile (fun c => c ≠ '#') with
      | [] => []
      | c :: r => c.toUpper :: replSpaces r) ++
     target.dropWhile (fun c => c ≠ '#'))

/-! ## Predicates for the optimizer idempotence analysis

`optimize` is not idempotent on arbitrary trees (see `C3_counterexample`):
the flatten pass splices only one nesting level per pass.  The amended claim
restricts to trees without same-kind nesting.  `Clean ctx t` says `t`
contains no Link/Italic/Bold node that has an ancestor of the same kind
(relative to the already-active context flags in `ctx`); `Opt ctx t` is the
normal form invariant established by one `optimize` pass on a clean tree:
children are unflagged, recursively normal, and no two adjacent children are
merge-candidates of any kind.
-/

/-- No pair of adjacent merge candidates of kind `k`. -/
def noPair (k : CombK) (a b : Node) : Prop :=
  ¬(isCK k a = true ∧ isCK k b = true)

/-- Trees without same-kind nesting relative to the active context flags. -/
inductive Clean : Ctx → Node → Prop where
  | text (ctx : Ctx) (s : List Char) : Clean ctx (Node.text s)
  | sentence (ctx : Ctx) (cs : List Node) :
      (∀ c ∈ cs, Clean ctx c) → Clean ctx (Node.sentence cs)
  | italic (ctx : Ctx) (cs : List Node) : ctx.italic = false →
      (∀ c ∈ cs, Clean { ctx with italic := true } c) →
      Clean ctx (Node.italic cs)
  | bold (ctx : Ctx) (cs : List Node) : ctx.bold = false →
      (∀ c ∈ cs, Clean { ctx with bold := true } c) →
      Clean ctx (Node.bold cs)
  | link (ctx : Ctx) (tg : List Char) (cs : List Node) : ctx.link = false →
      (∀ c ∈ cs, Clean { ctx with link := true } c) →
      Clean ctx (Node.link tg cs)

/-- Normal forms of the optimizer (with the default configuration) under
context `ctx`: every child is unflagged, itself normal, and no two adjacent
children can be merged. -/
inductive Opt : Ctx → Node → Prop where
  | text (ctx : Ctx) (s : List Char) : Opt ctx (Node.text s)
  | sentence (ctx : Ctx) (cs : List Node) :
      (∀ c ∈ cs, flagged ctx c = false) → (∀ c ∈ cs, Opt ctx c) →
      (∀ k, List.Chain' (noPair k) cs) → Opt ctx (Node.sentence cs)
  | italic (ctx : Ctx) (cs : List Node) :
      (∀ c ∈ cs, flagged { ctx with italic := true } c = false) →
      (∀ c ∈ cs, Opt { ctx with italic := true } c) →
      (∀ k, List.Chain' (noPair k) cs) → Opt ctx (Node.italic cs)
  | bold (ctx : Ctx) (cs : List Node) :
      (∀ c ∈ cs, flagged { ctx with bold := true } c = false) →
      (∀ c ∈ cs, Opt { ctx with bold := true } c) →
      (∀ k, List.Chain' (noPair k) cs) → Opt ctx (Node.bold cs)
  | link (ctx : Ctx) (tg : List Char) (cs : List Node) :
      (∀ c ∈ cs, flagged { ctx with link := true } c = false) →
      (∀ c ∈ cs, Opt { ctx with link := true } c) →
      (∀ k, List.Chain' (noPair k) cs) → Opt ctx (Node.link tg cs)

/-! ### Scanner lemmas -/

theorem joinTexts_append (l₁ l₂ : List Token) :
    joinTexts (l₁ ++ l₂) = joinTexts l₁ ++ joinTexts l₂ := by
  induction l₁ with
  | nil => rfl
  | cons t ts ih => simp [joinTexts, ih]

theorem joinTexts_flushText (tstart : Nat) (pending : List Char) :
    joinTexts (flushText tstart pending) = pending := by
  unfold flushText
  cases pending <;> simp [joinTexts]

theorem scanAux_join (tstart pos : Nat) (pending rest : List Char) :
    joinTexts (scanAux tstart pos pending rest) = pending ++ rest := by
  induction tstart, pos, pending, rest using scanAux.induct <;>
    simp_all [scanAux, joinTexts, joinTexts_append, joinTexts_flushText, List.replicate]

theorem covers_emit (tstart pos : Nat) (pending : List Char) (ty : TokTy)
    (txt : List Char) (htxt : txt ≠ []) (hpos : pos = tstart + pending.length)
    (ts : List Token) (hts : covers (pos + txt.length) ts) :
    covers tstart (flushText tstart pending ++ ⟨ty, txt, pos⟩ :: ts) := by
  unfold flushText
  cases pending with
  | nil =>
      subst hpos
      simpa [covers] using ⟨htxt, hts⟩
  | cons c cs =>
      subst hpos
      exact ⟨rfl, by simp, rfl, htxt, hts⟩

theorem covers_flush (tstart : Nat) (pending : List Char) :
    covers tstart (flushText tstart pending) := by
  unfold flushText
  cases pending <;> simp [covers]

theorem scanAux_covers (tstart pos : Nat) (pending rest : List Char)
    (h : pos = tstart + pending.length) :
    covers tstart (scanAux tstart pos pending rest) := by
  induction tstart, pos, pending, rest using scanAux.induct
  all_goals simp only [scanAux]
  all_goals try exact covers_flush _ _
  all_goals rename_i ih
  all_goals
    first
      | exact covers_emit _ _ _ _ _ (by simp) h _ (ih rfl)
      | exact ih (by simp only [List.length_append, List.length_cons, List.length_nil]; omega)

theorem covers_mem_le (ts : List Token) : ∀ p, covers p ts → ∀ t ∈ ts, p ≤ t.pos := by
  induction ts with
  | nil => intro p _; simp
  | cons a ts ih =>
      intro p hc t ht
      obtain ⟨hpos, hne, hrest⟩ := hc
      rcases List.mem_cons.mp ht with rfl | ht
      · omega
      · have := ih _ hrest t ht
        omega

theorem covers_pairwise (ts : List Token) : ∀ p, covers p ts →
    ts.Pairwise (fun a b => a.pos < b.pos) := by
  induction ts with
  | nil => intro p _; exact List.Pairwise.nil
  | cons a ts ih =>
      intro p hc
      obtain ⟨hpos, hne, hrest⟩ := hc
      refine List.Pairwise.cons ?_ (ih _ hrest)
      intro t ht
      have h1 := covers_mem_le ts _ hrest t ht
      have h2 : 0 < a.text.length := List.length_pos.mpr hne
      omega

/-! ## Claim C8: longest-match scanning of quote runs -/

/-- C8: scanning a 5-apostrophe run, an `x`, and another 5-apostrophe run
produces exactly one opening 5-quote-run token, one literal-text token `x`
and one closing 5-quote-run token — the runs are never split 3+2 or 2+3. -/
theorem C8_longest_match_scan :
    compile (List.replicate 5 '\'' ++ 'x' :: List.replicate 5 '\'') =
      [⟨TokTy.q5, List.replicate 5 '\'', 0⟩, ⟨TokTy.text, ['x'], 5⟩,
       ⟨TokTy.q5, List.replicate 5 '\'', 6⟩] := by
  decide

/-! ## Claim C9: lossless coverage of the input by the token sequence -/

/-- C9: for every input, the token sequence of `compile` covers the input
losslessly: token positions are strictly ascending, spans are contiguous and
non-overlapping starting at position 0, every token text (in particular every
literal-text token) is non-empty, and concatenating all token texts
reproduces the input exactly. -/
theorem C9_scan_lossless (input : List Char) :
    covers 0 (compile input) ∧ joinTexts (compile input) = input ∧
      (compile input).Pairwise (fun a b => a.pos < b.pos) := by
  refine ⟨scanAux_covers 0 0 [] input rfl, ?_, ?_⟩
  · simpa using scanAux_join 0 0 [] input
  · exact covers_pairwise _ 0 (scanAux_covers 0 0 [] input rfl)

/-! ## Parser lemmas -/

theorem parseF_suffix (fuel : Nat) :
    (∀ tok rest, (parseTokenF fuel tok rest).2 <:+ rest) ∧
    (∀ e rest, (parseUntilF fuel e rest).2 <:+ rest) ∧
    (∀ p pre post rest, (parseLinkF fuel p pre post rest).2 <:+ rest) := by
  induction fuel with
  | zero =>
      exact ⟨fun _ r => List.suffix_refl r, fun _ r => List.suffix_refl r,
        fun _ _ _ r => List.suffix_refl r⟩
  | succ f ih =>
      obtain ⟨ihT, ihU, ihL⟩ := ih
      refine ⟨?_, ?_, ?_⟩
      · intro tok rest
        cases htk : tok.ty <;> simp only [parseTokenF, htk]
        case text => exact List.suffix_refl rest
        case bOpen => exact ihU TokTy.bClose rest
        case q3 => exact ihU TokTy.q3 rest
        case q4 => exact ihU TokTy.q4 rest
        case q5 => exact ihU TokTy.q5 rest
        case iOpen => exact ihU TokTy.iClose rest
        case q2 => exact ihU TokTy.q2 rest
        case lOpen => exact ihL false [] [] rest
        case bClose => exact List.suffix_refl rest
        case iClose => exact List.suffix_refl rest
        case lClose => exact List.suffix_refl rest
        case pipe => exact List.suffix_refl rest
      · intro e rest
        cases rest with
        | nil => simp [parseUntilF]
        | cons x r =>
            by_cases hx : x.ty = e
            · simp only [parseUntilF, if_pos hx]
              exact List.suffix_cons x r
            · simp only [parseUntilF, if_neg hx]
              exact ((ihU e _).trans (ihT x r)).trans (List.suffix_cons x r)
      · intro p pre post rest
        cases rest with
        | nil => simp [parseLinkF]
        | cons x r =>
            by_cases hx : x.ty = TokTy.pipe
            · simp only [parseLinkF, if_pos hx]
              exact (ihL true pre post r).trans (List.suffix_cons x r)
            · by_cases hx2 : x.ty = TokTy.lClose
              · simp only [parseLinkF, if_neg hx, if_pos hx2]
                exact List.suffix_cons x r
              · simp only [parseLinkF, if_neg hx, if_neg hx2]
                cases p <;> simp only [Bool.false_eq_true, if_false, if_true] <;>
                  exact ((ihL _ _ _ _).trans (ihT x r)).trans (List.suffix_cons x r)

theorem parseUntilF_no_close (fuel : Nat) :
    ∀ e rest, rest.length + 1 ≤ fuel → (∀ t ∈ rest, t.ty ≠ e) →
      parseUntilF fuel e rest = (parseAllF fuel rest, []) := by
  induction fuel with
  | zero => intro e rest h _; omega
  | succ f ih =>
      intro e rest hlen hno
      cases rest with
      | nil => simp [parseUntilF, parseAllF]
      | cons x r =>
          have hx : ¬x.ty = e := hno x (by simp)
          have hsuf : (parseTokenF f x r).2 <:+ r := (parseF_suffix f).1 x r
          have hlen2 : (parseTokenF f x r).2.length + 1 ≤ f := by
            have := hsuf.length_le
            simp only [List.length_cons] at hlen
            omega
          have hno2 : ∀ t ∈ (parseTokenF f x r).2, t.ty ≠ e := fun t ht =>
            hno t (List.mem_cons_of_mem x (hsuf.subset ht))
          simp only [parseUntilF, parseAllF, if_neg hx]
          rw [ih e _ hlen2 hno2]

theorem parseF_congr (f : Nat) : ∀ g, f ≤ g →
    ((∀ tok rest, 2 * rest.length + 2 ≤ f →
        parseTokenF f tok rest = parseTokenF g tok rest) ∧
     (∀ e rest, 2 * rest.length + 1 ≤ f →
        parseUntilF f e rest = parseUntilF g e rest) ∧
     (∀ p pre post rest, 2 * rest.length + 1 ≤ f →
        parseLinkF f p pre post rest = parseLinkF g p pre post rest) ∧
     (∀ rest, 2 * rest.length + 1 ≤ f →
        parseAllF f rest = parseAllF g rest)) := by
  induction f with
  | zero =>
      intro g _
      refine ⟨?_, ?_, ?_, ?_⟩ <;> intros <;> omega
  | succ f ih =>
      intro g hg
      obtain ⟨g', rfl⟩ : ∃ g', g = g' + 1 := ⟨g - 1, by omega⟩
      have hg' : f ≤ g' := by omega
      obtain ⟨ihT, ihU, ihL, ihA⟩ := ih g' hg'
      have hT : ∀ tok rest, 2 * rest.length + 2 ≤ f + 1 →
          parseTokenF (f + 1) tok rest = parseTokenF (g' + 1) tok rest := by
        intro tok rest hlen
        have hU : ∀ e, parseUntilF f e rest = parseUntilF g' e rest :=
          fun e => ihU e rest (by omega)
        cases htk : tok.ty <;> simp only [parseTokenF, htk]
        case bOpen => rw [hU]
        case q3 => rw [hU]
        case q4 => rw [hU]
        case q5 => rw [hU]
        case iOpen => rw [hU]
        case q2 => rw [hU]
        case lOpen => rw [ihL false [] [] rest (by omega)]
      refine ⟨hT, ?_, ?_, ?_⟩
      · intro e rest hlen
        cases rest with
        | nil => simp [parseUntilF]
        | cons x r =>
            by_cases hx : x.ty = e
            · simp [parseUntilF, if_pos hx]
            · have hsuf : (parseTokenF g' x r).2 <:+ r := (parseF_suffix g').1 x r
              have hlen2 := hsuf.length_le
              simp only [List.length_cons] at hlen
              simp only [parseUntilF, if_neg hx]
              rw [ihT x r (by omega)]
              rw [ihU e _ (by omega)]
      · intro p pre post rest hlen
        cases rest with
        | nil => simp [parseLinkF]
        | cons x r =>
            simp only [List.length_cons] at hlen
            by_cases hx : x.ty = TokTy.pipe
            · simp only [parseLinkF, if_pos hx]
              exact ihL true pre post r (by omega)
            · by_cases hx2 : x.ty = TokTy.lClose
              · simp [parseLinkF, if_neg hx, if_pos hx2]
              · have hsuf : (parseTokenF g' x r).2 <:+ r := (parseF_suffix g').1 x r
                have hlen2 := hsuf.length_le
                simp only [parseLinkF, if_neg hx, if_neg hx2]
                rw [ihT x r (by omega)]
                cases p <;> simp only [Bool.false_eq_true, if_false, if_true]
                · rw [ihL false _ _ _ (by omega)]
                · rw [ihL true _ _ _ (by omega)]
      · intro rest hlen
        cases rest with
        | nil => simp [parseAllF]
        | cons x r =>
            simp only [List.length_cons] at hlen
            have hsuf : (parseTokenF g' x r).2 <:+ r := (parseF_suffix g').1 x r
            have hlen2 := hsuf.length_le
            simp only [parseAllF]
            rw [ihT x r (by omega)]
            rw [ihA _ (by omega)]

/-! ## Claim C1: link-open resolution rules -/

/-- C1: the resolution performed by the `'[['` parser after its accumulation
loop agrees, for every pipe flag and every pair of accumulated target and
display expressions, with the claim's five ordered rules: (1) pipe seen and
empty display, nothing; (2) no pipe, display equals target nodes; (3) the
target string concatenates the plain-text rendering of the target nodes;
(4) empty target, display emitted unwrapped; (5) otherwise exactly one Link
node with that target and the display as children. -/
theorem C1_link_resolution (pipe : Bool) (pre post : List Node) :
    resolveLink pipe pre post = linkRulesClaim pipe pre post := by
  cases pipe <;> cases pre <;> cases post <;>
    simp [resolveLink, linkRulesClaim]

/-! ## Claim C2: parse is total and closes constructs at end of input -/

/-- C2: `parse` always returns a `Sentence` root holding the top-level loop's
nodes (it is a total function, so no error is ever signalled), and when the
input ends before an expected close token appears, the accumulated children
are wrapped exactly as if the construct had been closed at end of input: an
`until`-loop whose remaining tokens never contain its close token consumes
everything and returns exactly the nodes the top-level loop would produce,
and a bold-open token with no matching close wraps those nodes in one Bold
(dropped when empty), consuming the whole input. -/
theorem C2_parse_total :
    (∀ tokens, parse tokens = Node.sentence (parseAll tokens)) ∧
    (∀ e rest, (∀ t ∈ rest, t.ty ≠ e) →
      parseUntil e rest = (parseAll rest, [])) ∧
    (∀ tok rest, tok.ty = TokTy.bOpen → (∀ t ∈ rest, t.ty ≠ TokTy.bClose) →
      parseToken tok rest =
        (if (parseAll rest).isEmpty then [] else [Node.bold (parseAll rest)], [])) := by
  refine ⟨fun tokens => rfl, ?_, ?_⟩
  · intro e rest hno
    exact parseUntilF_no_close (2 * rest.length + 2) e rest (by omega) hno
  · intro tok rest htk hno
    have hstep : parseToken tok rest = parseTokenF (2 * rest.length + 1 + 1) tok rest := rfl
    rw [hstep]
    simp only [parseTokenF, htk]
    rw [parseUntilF_no_close (2 * rest.length + 1) TokTy.bClose rest (by omega) hno]
    rw [((parseF_congr (2 * rest.length + 1)) (2 * rest.length + 2) (by omega)).2.2.2
      rest (by omega)]
    rfl

/-- Witness for C2: the second and third components applied at a concrete
unterminated input. -/
theorem C2_parse_total_witness :
    parseUntil TokTy.bClose [⟨TokTy.text, ['x'], 0⟩] =
      (parseAll [⟨TokTy.text, ['x'], 0⟩], []) ∧
    parseToken ⟨TokTy.bOpen, ['<', 'b', '>'], 0⟩ [⟨TokTy.text, ['x'], 0⟩] =
      (if (parseAll [⟨TokTy.text, ['x'], 0⟩]).isEmpty then []
       else [Node.bold (parseAll [⟨TokTy.text, ['x'], 0⟩])], []) :=
  ⟨C2_parse_total.2.1 TokTy.bClose _ (by decide),
   C2_parse_total.2.2 _ _ rfl (by decide)⟩

/-! ## Claim C10: stray close and pipe tokens fall back to literal text -/

/-- C10: a token whose kind has no dispatch entry — a close token or a pipe
outside the construct it would close — is parsed by the literal-text fallback
into one Text node holding the token's text, consuming nothing further. -/
theorem C10_stray_token_fallback (tok : Token) (rest : List Token)
    (h : tok.ty = TokTy.lClose ∨ tok.ty = TokTy.bClose ∨ tok.ty = TokTy.iClose ∨
      tok.ty = TokTy.pipe) :
    parseToken tok rest = ([Node.text tok.text], rest) := by
  have hstep : parseToken tok rest = parseTokenF (2 * rest.length + 1 + 1) tok rest := rfl
  rcases h with h | h | h | h <;> (rw [hstep]; simp [parseTokenF, h])

/-- Witness for C10: a stray pipe token becomes the literal text `|`. -/
theorem C10_stray_token_fallback_witness :
    parseToken ⟨TokTy.pipe, ['|'], 0⟩ [] = ([Node.text ['|']], []) :=
  C10_stray_token_fallback ⟨TokTy.pipe, ['|'], 0⟩ [] (Or.inr (Or.inr (Or.inr rfl)))

/-! ## Claim C6: internal link reference derivation -/

/-- Counterexample to C6: for the internal target `a #b c` the code replaces
the space occurring after `#` by an underscore as well, so the derived
reference differs from the claim's rule that only the portion before `#` is
rewritten and the `#anchor` suffix is appended unchanged. -/
theorem C6_counterexample :
    isExternal ('a' :: ' ' :: '#' :: 'b' :: ' ' :: 'c' :: []) = false ∧
    href ('a' :: ' ' :: '#' :: 'b' :: ' ' :: 'c' :: []) ≠
      hrefClaimC6 ('a' :: ' ' :: '#' :: 'b' :: ' ' :: 'c' :: []) := by
  decide

theorem replSpaces_eq_map (s : List Char) :
    replSpaces s = s.map (fun c => if c = ' ' then '_' else c) := by
  induction s with
  | nil => rfl
  | cons c r ih => simp [replSpaces, ih]

/-- C6 amended: for every non-empty internal target, the derived reference is
`./` followed by the upper-cased first character and the remainder with every
space replaced by an underscore — including any spaces after a `#`; no
`#anchor` suffix is treated specially. -/
theorem C6_internal_reference (c : Char) (r : List Char)
    (h : isExternal (c :: r) = false) :
    href (c :: r) =
      '.' :: '/' :: c.toUpper :: r.map (fun x => if x = ' ' then '_' else x) := by
  rw [href, h]
  simp [internalLink, replSpaces_eq_map]

/-- Witness for C6 amended: the internal target `a b#c d` derives the
reference `./A_b#c_d` (the space after `#` also becomes an underscore). -/
theorem C6_internal_reference_witness :
    href ('a' :: ' ' :: 'b' :: '#' :: 'c' :: ' ' :: 'd' :: []) =
      '.' :: '/' :: 'A' :: '_' :: 'b' :: '#' :: 'c' :: '_' :: 'd' :: [] :=
  (C6_internal_reference 'a' (' ' :: 'b' :: '#' :: 'c' :: ' ' :: 'd' :: [])
    (by decide)).trans (by decide)

/-! ## Claim C7: structured link summary fields -/

/-- Counterexample to C7: the external target `http://x#y` nevertheless gets
an `anchor` entry in its structured summary — the `anchor` getter is not
gated on the internal classification, contradicting the claimed mutual
exclusivity of `site` and `anchor`. -/
theorem C7_counterexample :
    isExternal ('h' :: 't' :: 't' :: 'p' :: ':' :: '/' :: '/' :: 'x' :: '#' :: 'y' :: []) =
      true ∧
    (linkToJSON ('h' :: 't' :: 't' :: 'p' :: ':' :: '/' :: '/' :: 'x' :: '#' :: 'y' :: [])
      []).anchor ≠ none := by
  decide

theorem hashTail_isEmpty (s : List Char) :
    (hashTail s).isEmpty = !s.contains '#' := by
  induction s with
  | nil => rfl
  | cons c r ih =>
      unfold hashTail at ih ⊢
      rw [List.dropWhile_cons]
      by_cases hc : c = '#'
      · subst hc
        simp
      · have h1 : decide (c ≠ '#') = true := by simpa using hc
        have h2 : ('#' == c) = false := by
          simp only [beq_eq_false_iff_ne, ne_eq]
          exact fun h => hc h.symm
        rw [if_pos h1, ih, List.contains_cons, h2]
        simp

/-- C7 amended: in a Link's structured summary, `site` is present exactly for
external targets and `page` only for internal ones, but `anchor` is present
exactly when the target contains a `#` — independently of the
external/internal classification, so an external target with a `#` carries
an anchor too. -/
theorem C7_summary_fields (target : List Char) (cs : List Node) :
    ((linkToJSON target cs).site.isSome = isExternal target) ∧
    (((linkToJSON target cs).page.isSome && isExternal target) = false) ∧
    ((linkToJSON target cs).anchor.isSome = target.contains '#') := by
  refine ⟨?_, ?_, ?_⟩
  · simp only [linkToJSON, linkSite]
    cases h : isExternal target <;> simp
  · simp only [linkToJSON, linkPage]
    cases h : isExternal target <;> simp
  · have h := hashTail_isEmpty target
    cases hct : target.contains '#'
    · rw [hct] at h
      simp only [Bool.not_false] at h
      simp [linkToJSON, linkAnchor, h]
    · rw [hct] at h
      simp only [Bool.not_true] at h
      simp [linkToJSON, linkAnchor, h]

/-! ## Claim C5: flatten and merge on the doubly-nested bold example -/

/-- C5: optimizing the parse of `pre <b>pre <b>bold²</b> post</b> post`
splices the nested Bold into its parent and merges the adjacent Text nodes:
the result is a Sentence whose Bold child contains exactly the single Text
`pre bold² post`, with sibling order unchanged. -/
theorem C5_flatten_merge_example :
    optimize (parse (compile ("pre <b>pre <b>bold²</b> post</b> post").data)) =
      Node.sentence [Node.text ("pre ").data,
        Node.bold [Node.text ("pre bold² post").data],
        Node.text (" post").data] := by
  rfl

/-! ## Claim C4: plain-text rendering is invariant under optimization -/

theorem textList_append (l₁ l₂ : List Node) :
    textList (l₁ ++ l₂) = textList l₁ ++ textList l₂ := by
  induction l₁ with
  | nil => rfl
  | cons c cs ih => simp [textList, ih]

theorem textList_childsOf (ctx : Ctx) (n : Node) (h : flagged ctx n = true) :
    textList (childsOf n) = toText n := by
  cases n <;> simp_all [flagged, childsOf, toText]

theorem flattenFold_text (ctx : Ctx) (cs : List Node) : ∀ out,
    textList (cs.foldl (flattenStep ctx) out) = textList out ++ textList cs := by
  induction cs with
  | nil => intro out; simp [textList]
  | cons c cs ih =>
      intro out
      rw [List.foldl_cons, ih]
      unfold flattenStep
      cases h : flagged ctx c
      · simp [textList_append, textList]
      · simp [textList_append, textList, textList_childsOf ctx c h]

theorem mapF_text (F : Node → Node) (hF : ∀ x, toText (F x) = toText x)
    (cs : List Node) : textList (cs.map F) = textList cs := by
  induction cs with
  | nil => rfl
  | cons c cs ih => simp [textList, ih, hF]

theorem getLast?_some_decomp {α : Type} {l : List α} {a : α}
    (h : l.getLast? = some a) : ∃ l', l = l' ++ [a] := by
  induction l with
  | nil => simp at h
  | cons x xs ih =>
      cases xs with
      | nil =>
          simp [List.getLast?] at h
          exact ⟨[], by simp [h]⟩
      | cons y ys =>
          rw [List.getLast?_cons_cons] at h
          obtain ⟨l', hl⟩ := ih h
          exact ⟨x :: l', by simp [hl]⟩

theorem toText_combK (k : CombK) (a b : Node) (ha : isCK k a = true)
    (hb : isCK k b = true) :
    toText (combK k a b) = toText a ++ toText b := by
  cases k <;> cases a <;> cases b <;>
    simp_all [isCK, combK, toText, textList_append]

theorem combineFold_text (F : Node → Node) (hF : ∀ x, toText (F x) = toText x)
    (skip : Bool) (k : CombK) (cs : List Node) : ∀ out,
    textList (cs.foldl (combineStep F skip k) out) =
      textList out ++ textList cs := by
  induction cs with
  | nil => intro out; simp [textList]
  | cons node cs ih =>
      intro out
      rw [List.foldl_cons, ih]
      cases skip
      · cases hl : out.getLast? with
        | none => simp [combineStep, hl, textList_append, textList]
        | some last =>
            by_cases hck : (isCK k last && isCK k node) = true
            · obtain ⟨hcl, hcn⟩ := Bool.and_eq_true_iff.mp hck
              obtain ⟨l', rfl⟩ := getLast?_some_decomp hl
              simp [combineStep, hl, hck, textList_append, textList, hF,
                List.dropLast_concat, toText_combK k last node hcl hcn]
            · simp [combineStep, hl, hck, textList_append, textList]
      · simp [combineStep, textList_append, textList]

theorem optimizeF_toText (fuel : Nat) : ∀ (conf : Conf) (ctx : Ctx) (t : Node),
    toText (optimizeF fuel conf ctx t) = toText t := by
  induction fuel with
  | zero => intro conf ctx t; rfl
  | succ f ih =>
      intro conf ctx t
      cases t <;>
        simp [optimizeF, toText, optChilds, combineFold_text _ (ih conf _) _ _,
          mapF_text _ (ih conf _), flattenFold_text, textList]

/-- C4: optimization does not change the plain-text rendering — for every
tree (with the default all-true option flags and for any fuel, configuration
and context), `optimize(t).toText() = t.toText()`. -/
theorem C4_optimize_text_invariant (t : Node) :
    toText (optimize t) = toText t :=
  optimizeF_toText (nsize t) defaultConf ctx0 t

/-! ## Claim C3: idempotence of optimize -/

/-- Counterexample to C3: the flatten pass splices only one nesting level per
pass, so on the triply-nested `Bold[Bold[Bold[Text a]]]` a single `optimize`
leaves `Bold[Bold[Text a]]` and a second application changes the tree again —
optimize is not idempotent on all trees. -/
theorem C3_counterexample :
    optimize (optimize (Node.bold [Node.bold [Node.bold [Node.text ['a']]]])) ≠
      optimize (Node.bold [Node.bold [Node.bold [Node.text ['a']]]]) := by
  have h1 : optimize (Node.bold [Node.bold [Node.bold [Node.text ['a']]]]) =
      Node.bold [Node.bold [Node.text ['a']]] := rfl
  have h2 : optimize (Node.bold [Node.bold [Node.text ['a']]]) =
      Node.bold [Node.text ['a']] := rfl
  rw [h1, h2]
  simp

/-! ### Size and kind lemmas for the optimizer -/

theorem nsize_pos (t : Node) : 1 ≤ nsize t := by
  cases t <;> simp [nsize]

theorem nsizeL_append (l₁ l₂ : List Node) :
    nsizeL (l₁ ++ l₂) = nsizeL l₁ + nsizeL l₂ := by
  induction l₁ with
  | nil => simp [nsizeL]
  | cons c cs ih => simp [nsizeL, ih]; omega

theorem nsize_mem_le {c : Node} {cs : List Node} (h : c ∈ cs) :
    nsize c ≤ nsizeL cs := by
  induction cs with
  | nil => cases h
  | cons x xs ih =>
      rcases List.mem_cons.mp h with rfl | h
      · simp [nsizeL]
      · have := ih h
        simp [nsizeL]
        omega

theorem nsize_childsOf (n : Node) : nsizeL (childsOf n) + 1 = nsize n := by
  cases n <;> simp [childsOf, nsize, nsizeL] <;> omega

theorem flattenFold_nsize (ctx : Ctx) (cs : List Node) : ∀ out,
    nsizeL (cs.foldl (flattenStep ctx) out) ≤ nsizeL out + nsizeL cs := by
  induction cs with
  | nil => intro out; simp [nsizeL]
  | cons c cs ih =>
      intro out
      rw [List.foldl_cons]
      refine (ih _).trans ?_
      unfold flattenStep
      have hc := nsize_childsOf c
      cases h : flagged ctx c <;>
        simp [nsizeL_append, nsizeL] <;> omega

theorem nsize_combK (k : CombK) (a b : Node) (ha : isCK k a = true)
    (hb : isCK k b = true) : nsize (combK k a b) + 1 = nsize a + nsize b := by
  cases k <;> cases a <;> cases b <;> simp_all [isCK, combK, nsize, nsizeL_append] <;> omega

theorem combineFold_nsize (F : Node → Node) (hF : ∀ x, nsize (F x) ≤ nsize x)
    (skip : Bool) (k : CombK) (cs : List Node) : ∀ out,
    nsizeL (cs.foldl (combineStep F skip k) out) ≤ nsizeL out + nsizeL cs := by
  induction cs with
  | nil => intro out; simp [nsizeL]
  | cons node cs ih =>
      intro out
      rw [List.foldl_cons]
      refine (ih _).trans ?_
      cases skip
      · cases hl : out.getLast? with
        | none => simp [combineStep, hl, nsizeL_append, nsizeL]; omega
        | some last =>
            by_cases hck : (isCK k last && isCK k node) = true
            · obtain ⟨hcl, hcn⟩ := Bool.and_eq_true_iff.mp hck
              obtain ⟨l', rfl⟩ := getLast?_some_decomp hl
              have h1 := hF (combK k last node)
              have h2 := nsize_combK k last node hcl hcn
              simp [combineStep, hl, hck, nsizeL_append, nsizeL, List.dropLast_concat]
              omega
            · simp [combineStep, hl, hck, nsizeL_append, nsizeL]
              omega
      · simp [combineStep, nsizeL_append, nsizeL]
        omega

theorem mapF_nsize (F : Node → Node) (hF : ∀ x, nsize (F x) ≤ nsize x)
    (cs : List Node) : nsizeL (cs.map F) ≤ nsizeL cs := by
  induction cs with
  | nil => simp [nsizeL]
  | cons c cs ih =>
      have := hF c
      simp [nsizeL]
      omega

theorem optimizeF_nsize (fuel : Nat) : ∀ (conf : Conf) (ctx : Ctx) (t : Node),
    nsize (optimizeF fuel conf ctx t) ≤ nsize t := by
  induction fuel with
  | zero => intro conf ctx t; exact le_rfl
  | succ f ih =>
      intro conf ctx t
      have key : ∀ (c : Ctx) (cs : List Node),
          nsizeL (optChilds (optimizeF f conf c) conf c cs) ≤ nsizeL cs := by
        intro c cs
        unfold optChilds
        have h1 : nsizeL (cs.foldl (flattenStep c) []) ≤ nsizeL cs := by
          simpa [nsizeL] using flattenFold_nsize c cs []
        have h3 : ∀ (skip : Bool) (k : CombK) (l : List Node),
            nsizeL (l.foldl (combineStep (optimizeF f conf c) skip k) []) ≤ nsizeL l := by
          intro skip k l
          simpa [nsizeL] using combineFold_nsize (optimizeF f conf c) (ih conf c) skip k l []
        exact (h3 _ _ _).trans ((h3 _ _ _).trans ((h3 _ _ _).trans
          ((mapF_nsize _ (ih conf c) _).trans h1)))
      cases t <;> simp [optimizeF, nsize] <;> apply key

theorem optimizeF_isCK (fuel : Nat) (conf : Conf) (ctx : Ctx) (t : Node)
    (j : CombK) : isCK j (optimizeF fuel conf ctx t) = isCK j t := by
  cases fuel with
  | zero => rfl
  | succ f => cases t <;> cases j <;> simp [optimizeF, isCK]

theorem optimizeF_flagged (fuel : Nat) (conf : Conf) (ctx ctx2 : Ctx) (t : Node) :
    flagged ctx2 (optimizeF fuel conf ctx t) = flagged ctx2 t := by
  cases fuel with
  | zero => rfl
  | succ f => cases t <;> simp [optimizeF, flagged]

/-! ### Identity lemmas: one pass on a normal form changes nothing -/

theorem Clean_flagged {ctx : Ctx} {c : Node} (h : Clean ctx c) :
    flagged ctx c = false := by
  cases h <;> simp_all [flagged]

theorem flattenFold_id (ctx : Ctx) (cs : List Node)
    (hflag : ∀ c ∈ cs, flagged ctx c = false) : ∀ out,
    cs.foldl (flattenStep ctx) out = out ++ cs := by
  induction cs with
  | nil => intro out; simp
  | cons c cs ih =>
      intro out
      rw [List.foldl_cons]
      have hc : flagged ctx c = false := hflag c (by simp)
      rw [show flattenStep ctx out c = out ++ [c] by simp [flattenStep, hc]]
      rw [ih (fun x hx => hflag x (by simp [hx]))]
      simp

theorem map_id_of {F : Node → Node} {cs : List Node}
    (h : ∀ c ∈ cs, F c = c) : cs.map F = cs := by
  induction cs with
  | nil => rfl
  | cons c cs ih =>
      simp only [List.map_cons, h c (by simp), ih (fun x hx => h x (by simp [hx]))]

theorem combineFold_id (F : Node → Node) (k : CombK) (cs : List Node) : ∀ out,
    List.Chain' (noPair k) (out ++ cs) →
    cs.foldl (combineStep F false k) out = out ++ cs := by
  induction cs with
  | nil => intro out _; simp
  | cons node cs ih =>
      intro out hchain
      rw [List.foldl_cons]
      cases hl : out.getLast? with
      | none =>
          have hout : out = [] := List.getLast?_eq_none_iff.mp hl
          subst hout
          rw [show combineStep F false k [] node = [node] by simp [combineStep]]
          rw [ih [node] (by simpa using hchain)]
          simp
      | some last =>
          obtain ⟨hout, hrest, hbd⟩ := List.chain'_append.mp hchain
          have hnp : noPair k last node := hbd last hl node rfl
          have hck : (isCK k last && isCK k node) = false := by
            cases h1 : isCK k last <;> cases h2 : isCK k node <;> simp_all [noPair]
          rw [show combineStep F false k out node = out ++ [node] by
            simp [combineStep, hl, hck]]
          rw [ih (out ++ [node]) (by simpa using hchain)]
          simp

/-- `optChilds` is the identity on an already-normal child list. -/
theorem optChilds_id (F : Node → Node) (ctx' : Ctx) (cs : List Node)
    (hflag : ∀ c ∈ cs, flagged ctx' c = false)
    (hfix : ∀ c ∈ cs, F c = c)
    (hchain : ∀ k, List.Chain' (noPair k) cs) :
    optChilds F defaultConf ctx' cs = cs := by
  unfold optChilds
  rw [flattenFold_id ctx' cs hflag []]
  simp only [List.nil_append, defaultConf, Bool.not_true]
  rw [map_id_of hfix]
  rw [combineFold_id F CombK.ktext cs [] (by simpa using hchain CombK.ktext)]
  simp only [List.nil_append]
  rw [combineFold_id F CombK.kitalic cs [] (by simpa using hchain CombK.kitalic)]
  simp only [List.nil_append]
  rw [combineFold_id F CombK.kbold cs [] (by simpa using hchain CombK.kbold)]
  simp

/-- One optimizer pass (default configuration, sufficient fuel) leaves a
normal form unchanged. -/
theorem optimizeF_stab {ctx : Ctx} {t : Node} (h : Opt ctx t) :
    ∀ f, nsize t ≤ f → optimizeF f defaultConf ctx t = t := by
  induction h with
  | text ctx s => intro f hf; cases f <;> rfl
  | sentence ctx cs hflag hopt hchain ih =>
      intro f hf
      obtain ⟨f', rfl⟩ : ∃ f', f = f' + 1 :=
        ⟨f - 1, by have := nsize_pos (Node.sentence cs); omega⟩
      have hfix : ∀ c ∈ cs, optimizeF f' defaultConf ctx c = c := fun c hc =>
        ih c hc f' (by
          have h1 := nsize_mem_le hc
          simp only [nsize] at hf
          omega)
      show Node.sentence (optChilds (optimizeF f' defaultConf ctx) defaultConf ctx cs) =
        Node.sentence cs
      rw [optChilds_id _ _ _ hflag hfix hchain]
  | italic ctx cs hflag hopt hchain ih =>
      intro f hf
      obtain ⟨f', rfl⟩ : ∃ f', f = f' + 1 :=
        ⟨f - 1, by have := nsize_pos (Node.italic cs); omega⟩
      have hfix : ∀ c ∈ cs,
          optimizeF f' defaultConf { ctx with italic := true } c = c := fun c hc =>
        ih c hc f' (by
          have h1 := nsize_mem_le hc
          simp only [nsize] at hf
          omega)
      show Node.italic (optChilds (optimizeF f' defaultConf { ctx with italic := true })
        defaultConf { ctx with italic := true } cs) = Node.italic cs
      rw [optChilds_id _ _ _ hflag hfix hchain]
  | bold ctx cs hflag hopt hchain ih =>
      intro f hf
      obtain ⟨f', rfl⟩ : ∃ f', f = f' + 1 :=
        ⟨f - 1, by have := nsize_pos (Node.bold cs); omega⟩
      have hfix : ∀ c ∈ cs,
          optimizeF f' defaultConf { ctx with bold := true } c = c := fun c hc =>
        ih c hc f' (by
          have h1 := nsize_mem_le hc
          simp only [nsize] at hf
          omega)
      show Node.bold (optChilds (optimizeF f' defaultConf { ctx with bold := true })
        defaultConf { ctx with bold := true } cs) = Node.bold cs
      rw [optChilds_id _ _ _ hflag hfix hchain]
  | link ctx tg cs hflag hopt hchain ih =>
      intro f hf
      obtain ⟨f', rfl⟩ : ∃ f', f = f' + 1 :=
        ⟨f - 1, by have := nsize_pos (Node.link tg cs); omega⟩
      have hfix : ∀ c ∈ cs,
          optimizeF f' defaultConf { ctx with link := true } c = c := fun c hc =>
        ih c hc f' (by
          have h1 := nsize_mem_le hc
          simp only [nsize] at hf
          omega)
      show Node.link tg (optChilds (optimizeF f' defaultConf { ctx with link := true })
        defaultConf { ctx with link := true } cs) = Node.link tg cs
      rw [optChilds_id _ _ _ hflag hfix hchain]

/-! ### Normal forms are clean -/

theorem Opt_to_Clean {ctx : Ctx} {t : Node} (h : Opt ctx t) :
    flagged ctx t = false → Clean ctx t := by
  induction h with
  | text ctx s => intro _; exact Clean.text ctx s
  | sentence ctx cs hflag hopt hchain ih =>
      intro _
      exact Clean.sentence ctx cs (fun c hc => ih c hc (hflag c hc))
  | italic ctx cs hflag hopt hchain ih =>
      intro hf
      exact Clean.italic ctx cs (by simpa [flagged] using hf)
        (fun c hc => ih c hc (hflag c hc))
  | bold ctx cs hflag hopt hchain ih =>
      intro hf
      exact Clean.bold ctx cs (by simpa [flagged] using hf)
        (fun c hc => ih c hc (hflag c hc))
  | link ctx tg cs hflag hopt hchain ih =>
      intro hf
      exact Clean.link ctx tg cs (by simpa [flagged] using hf)
        (fun c hc => ih c hc (hflag c hc))

theorem combK_isCK_self (k : CombK) (a b : Node) (ha : isCK k a = true)
    (hb : isCK k b = true) : isCK k (combK k a b) = true := by
  cases k <;> cases a <;> cases b <;> simp_all [isCK, combK]

theorem combK_isCK_other {j k : CombK} (hjk : j ≠ k) (a b : Node)
    (ha : isCK k a = true) (hb : isCK k b = true) :
    isCK j (combK k a b) = false := by
  cases j <;> cases k <;> cases a <;> cases b <;> simp_all [isCK, combK]

theorem isCK_other {j k : CombK} (hjk : j ≠ k) {a : Node}
    (ha : isCK k a = true) : isCK j a = false := by
  cases j <;> cases k <;> cases a <;> simp_all [isCK]

theorem flagged_combK (ctx : Ctx) (k : CombK) (a b : Node)
    (ha : isCK k a = true) (hb : isCK k b = true) :
    flagged ctx (combK k a b) = flagged ctx a := by
  cases k <;> cases a <;> cases b <;> simp_all [isCK, combK, flagged]

/-- Merging two normal, unflagged nodes of the same merge kind gives a clean
node. -/
theorem merged_clean {ctx : Ctx} (k : CombK) {a b : Node}
    (ha : isCK k a = true) (hb : isCK k b = true)
    (hoa : Opt ctx a) (hob : Opt ctx b) (hfa : flagged ctx a = false) :
    Clean ctx (combK k a b) := by
  cases k with
  | ktext =>
      cases a <;> simp_all [isCK]
      cases b <;> simp_all [isCK]
      exact Clean.text ctx _
  | kitalic =>
      cases a with
      | italic as =>
          cases b with
          | italic bs =>
              have hctx : ctx.italic = false := by simpa [flagged] using hfa
              cases hoa with
              | italic _ _ hfla hopa _ =>
                  cases hob with
                  | italic _ _ hflb hopb _ =>
                      refine Clean.italic ctx (as ++ bs) hctx ?_
                      intro c hc
                      rcases List.mem_append.mp hc with hc | hc
                      · exact Opt_to_Clean (hopa c hc) (hfla c hc)
                      · exact Opt_to_Clean (hopb c hc) (hflb c hc)
          | text s => simp_all [isCK]
          | sentence cs => simp_all [isCK]
          | bold cs => simp_all [isCK]
          | link tg cs => simp_all [isCK]
      | text s => simp_all [isCK]
      | sentence cs => simp_all [isCK]
      | bold cs => simp_all [isCK]
      | link tg cs => simp_all [isCK]
  | kbold =>
      cases a with
      | bold as =>
          cases b with
          | bold bs =>
              have hctx : ctx.bold = false := by simpa [flagged] using hfa
              cases hoa with
              | bold _ _ hfla hopa _ =>
                  cases hob with
                  | bold _ _ hflb hopb _ =>
                      refine Clean.bold ctx (as ++ bs) hctx ?_
                      intro c hc
                      rcases List.mem_append.mp hc with hc | hc
                      · exact Opt_to_Clean (hopa c hc) (hfla c hc)
                      · exact Opt_to_Clean (hopb c hc) (hflb c hc)
          | text s => simp_all [isCK]
          | sentence cs => simp_all [isCK]
          | italic cs => simp_all [isCK]
          | link tg cs => simp_all [isCK]
      | text s => simp_all [isCK]
      | sentence cs => simp_all [isCK]
      | italic cs => simp_all [isCK]
      | link tg cs => simp_all [isCK]

/-! ### The merge fold preserves and establishes normal-form invariants -/

theorem noPair_of_right {j : CombK} {a b : Node} (h : isCK j b = false) :
    noPair j a b := by
  intro hab
  rw [h] at hab
  exact absurd hab.2 (by simp)

theorem noPair_of_left {j : CombK} {a b : Node} (h : isCK j a = false) :
    noPair j a b := by
  intro hab
  rw [h] at hab
  exact absurd hab.1 (by simp)

theorem combineFold_norm (ctx' : Ctx) (F : Node → Node) (B : Nat) (k : CombK)
    (hFopt : ∀ x, Clean ctx' x → nsize x ≤ B → Opt ctx' (F x))
    (hFsize : ∀ x, nsize (F x) ≤ nsize x)
    (hFkind : ∀ x j, isCK j (F x) = isCK j x)
    (hFflag : ∀ x, flagged ctx' (F x) = flagged ctx' x) :
    ∀ (cs out : List Node),
      (∀ x ∈ out ++ cs, flagged ctx' x = false ∧ Opt ctx' x) →
      nsizeL out + nsizeL cs ≤ B →
      List.Chain' (noPair k) out →
      (∀ x ∈ cs.foldl (combineStep F false k) out,
        flagged ctx' x = false ∧ Opt ctx' x) ∧
      nsizeL (cs.foldl (combineStep F false k) out) ≤ nsizeL out + nsizeL cs ∧
      List.Chain' (noPair k) (cs.foldl (combineStep F false k) out) ∧
      (∀ j, j ≠ k → List.Chain' (noPair j) (out ++ cs) →
        List.Chain' (noPair j) (cs.foldl (combineStep F false k) out)) := by
  intro cs
  induction cs with
  | nil =>
      intro out helem hsize hchain
      simp only [List.foldl_nil]
      refine ⟨fun x hx => helem x (by simpa using hx), by simp [nsizeL], hchain, ?_⟩
      intro j _ hcj
      simpa using hcj
  | cons node cs ih =>
      intro out helem hsize hchain
      rw [List.foldl_cons]
      have hnode : flagged ctx' node = false ∧ Opt ctx' node :=
        helem node (by simp)
      cases hl : out.getLast? with
      | none =>
          have hout : out = [] := List.getLast?_eq_none_iff.mp hl
          subst hout
          have hstep : combineStep F false k [] node = [node] := by
            simp [combineStep]
          rw [hstep]
          have h := ih [node] (by simpa using helem)
            (by simp only [nsizeL] at hsize ⊢; omega)
            (List.chain'_singleton node)
          refine ⟨h.1, ?_, h.2.2.1, ?_⟩
          · refine h.2.1.trans ?_
            simp only [nsizeL]
            omega
          · intro j hj hcj
            exact h.2.2.2 j hj (by simpa using hcj)
      | some last =>
          have hlast : flagged ctx' last = false ∧ Opt ctx' last := by
            obtain ⟨l', rfl⟩ := getLast?_some_decomp hl
            exact helem last (by simp)
          by_cases hck : (isCK k last && isCK k node) = true
          · -- merge step
            obtain ⟨hcl, hcn⟩ := Bool.and_eq_true_iff.mp hck
            obtain ⟨l', rfl⟩ := getLast?_some_decomp hl
            have hstep : combineStep F false k (l' ++ [last]) node =
                l' ++ [F (combK k last node)] := by
              simp [combineStep, hl, hck, List.dropLast_concat]
            rw [hstep]
            have hsz_out : nsizeL (l' ++ [last]) = nsizeL l' + nsize last := by
              simp [nsizeL_append, nsizeL]
            have hsz_m : nsize (combK k last node) + 1 = nsize last + nsize node :=
              nsize_combK k last node hcl hcn
            have hszF := hFsize (combK k last node)
            have hB : nsize (combK k last node) ≤ B := by
              simp only [nsizeL] at hsize
              omega
            have hOm : Opt ctx' (F (combK k last node)) :=
              hFopt _ (merged_clean k hcl hcn hlast.2 hnode.2 hlast.1) hB
            have hfm : flagged ctx' (F (combK k last node)) = false := by
              rw [hFflag, flagged_combK ctx' k last node hcl hcn]
              exact hlast.1
            have hkm : isCK k (F (combK k last node)) = true := by
              rw [hFkind]
              exact combK_isCK_self k last node hcl hcn
            have hjm : ∀ j, j ≠ k → isCK j (F (combK k last node)) = false := by
              intro j hj
              rw [hFkind]
              exact combK_isCK_other hj last node hcl hcn
            -- chain of the new accumulator
            obtain ⟨hcl', hclast, hbd⟩ := List.chain'_append.mp hchain
            have hchain' : List.Chain' (noPair k) (l' ++ [F (combK k last node)]) := by
              refine List.chain'_append.mpr ⟨hcl', List.chain'_singleton _, ?_⟩
              intro x hx y hy
              simp only [List.head?_cons, Option.mem_def, Option.some.injEq] at hy
              subst hy
              have hxlast : noPair k x last := hbd x hx last rfl
              have hxk : isCK k x = false := by
                cases h1 : isCK k x
                · rfl
                · exact absurd ⟨h1, hcl⟩ hxlast
              exact noPair_of_left hxk
            have helem' : ∀ x ∈ (l' ++ [F (combK k last node)]) ++ cs,
                flagged ctx' x = false ∧ Opt ctx' x := by
              intro x hx
              rcases List.mem_append.mp hx with hx | hx
              · rcases List.mem_append.mp hx with hx | hx
                · exact helem x (by simp [hx])
                · simp only [List.mem_singleton] at hx
                  subst hx
                  exact ⟨hfm, hOm⟩
              · exact helem x (by simp [hx])
            have hsize' : nsizeL (l' ++ [F (combK k last node)]) + nsizeL cs ≤ B := by
              have : nsizeL (l' ++ [F (combK k last node)]) =
                  nsizeL l' + nsize (F (combK k last node)) := by
                simp [nsizeL_append, nsizeL]
              simp only [nsizeL] at hsize
              omega
            have h := ih (l' ++ [F (combK k last node)]) helem' hsize' hchain'
            refine ⟨h.1, ?_, h.2.2.1, ?_⟩
            · refine h.2.1.trans ?_
              have : nsizeL (l' ++ [F (combK k last node)]) =
                  nsizeL l' + nsize (F (combK k last node)) := by
                simp [nsizeL_append, nsizeL]
              simp only [nsizeL]
              omega
            · intro j hj hcj
              refine h.2.2.2 j hj ?_
              -- from Chain' j ((l' ++ [last]) ++ node :: cs) build
              -- Chain' j ((l' ++ [F merged]) ++ cs)
              have hcj' : List.Chain' (noPair j) (l' ++ last :: node :: cs) := by
                simpa using hcj
              obtain ⟨hjl', hjrest, hjbd⟩ := List.chain'_append.mp hcj'
              have hjcs : List.Chain' (noPair j) cs := (hjrest.tail).tail
              have hjmf : isCK j (F (combK k last node)) = false := hjm j hj
              have hgoal : List.Chain' (noPair j) (l' ++ F (combK k last node) :: cs) := by
                refine List.chain'_append.mpr ⟨hjl', ?_, ?_⟩
                · rw [List.chain'_cons']
                  exact ⟨fun y hy => noPair_of_left hjmf, hjcs⟩
                · intro x hx y hy
                  simp only [List.head?_cons, Option.mem_def, Option.some.injEq] at hy
                  subst hy
                  exact noPair_of_right hjmf
              simpa using hgoal
          · -- no merge: append
            have hstep : combineStep F false k out node = out ++ [node] := by
              simp [combineStep, hl, hck]
            rw [hstep]
            have hchain' : List.Chain' (noPair k) (out ++ [node]) := by
              refine List.chain'_append.mpr ⟨hchain, List.chain'_singleton _, ?_⟩
              intro x hx y hy
              simp only [List.head?_cons, Option.mem_def, Option.some.injEq] at hy
              subst hy
              rw [hl] at hx
              simp only [Option.mem_def, Option.some.injEq] at hx
              subst hx
              intro hab
              rw [hab.1, hab.2] at hck
              exact hck rfl
            have h := ih (out ++ [node])
              (by
                intro x hx
                refine helem x ?_
                rcases List.mem_append.mp hx with hx | hx
                · rcases List.mem_append.mp hx with hx | hx
                  · simp [hx]
                  · simp only [List.mem_singleton] at hx
                    simp [hx]
                · simp [hx])
              (by
                rw [nsizeL_append]
                simp only [nsizeL] at hsize ⊢
                omega)
              hchain'
            refine ⟨h.1, ?_, h.2.2.1, ?_⟩
            · refine h.2.1.trans ?_
              rw [nsizeL_append]
              simp only [nsizeL]
              omega
            · intro j hj hcj
              refine h.2.2.2 j hj ?_
              simpa using hcj

/-- The full child pipeline on a clean child list yields a normal child list:
all children unflagged and normal, total size not increased, and no two
adjacent merge candidates of any kind. -/
theorem optChilds_norm (ctx' : Ctx) (F : Node → Node) (B : Nat)
    (hFopt : ∀ x, Clean ctx' x → nsize x ≤ B → Opt ctx' (F x))
    (hFsize : ∀ x, nsize (F x) ≤ nsize x)
    (hFkind : ∀ x j, isCK j (F x) = isCK j x)
    (hFflag : ∀ x, flagged ctx' (F x) = flagged ctx' x)
    (cs : List Node)
    (hclean : ∀ c ∈ cs, Clean ctx' c)
    (hB : nsizeL cs ≤ B) :
    (∀ x ∈ optChilds F defaultConf ctx' cs, flagged ctx' x = false ∧ Opt ctx' x) ∧
    nsizeL (optChilds F defaultConf ctx' cs) ≤ nsizeL cs ∧
    (∀ k, List.Chain' (noPair k) (optChilds F defaultConf ctx' cs)) := by
  have hflat : cs.foldl (flattenStep ctx') [] = cs := by
    rw [flattenFold_id ctx' cs (fun c hc => Clean_flagged (hclean c hc)) []]
    simp
  have hmap_elem : ∀ x ∈ cs.map F, flagged ctx' x = false ∧ Opt ctx' x := by
    intro x hx
    obtain ⟨c, hc, rfl⟩ := List.mem_map.mp hx
    refine ⟨?_, hFopt c (hclean c hc) ((nsize_mem_le hc).trans hB)⟩
    rw [hFflag]
    exact Clean_flagged (hclean c hc)
  have hmap_size : nsizeL (cs.map F) ≤ nsizeL cs := mapF_nsize F hFsize cs
  have h1 := combineFold_norm ctx' F B CombK.ktext hFopt hFsize hFkind hFflag
    (cs.map F) [] (by simpa using hmap_elem)
    (by simp only [nsizeL]; omega) (by simp)
  have h2 := combineFold_norm ctx' F B CombK.kitalic hFopt hFsize hFkind hFflag
    ((cs.map F).foldl (combineStep F false CombK.ktext) []) []
    (by simpa using h1.1)
    (by
      have := h1.2.1
      simp only [nsizeL] at this ⊢
      omega)
    (by simp)
  have h3 := combineFold_norm ctx' F B CombK.kbold hFopt hFsize hFkind hFflag
    ((((cs.map F).foldl (combineStep F false CombK.ktext) []).foldl
      (combineStep F false CombK.kitalic) [])) []
    (by simpa using h2.1)
    (by
      have a1 := h1.2.1
      have a2 := h2.2.1
      simp only [nsizeL] at a1 a2 ⊢
      omega)
    (by simp)
  have hshape : optChilds F defaultConf ctx' cs =
      ((((cs.map F).foldl (combineStep F false CombK.ktext) []).foldl
        (combineStep F false CombK.kitalic) [])).foldl
        (combineStep F false CombK.kbold) [] := by
    unfold optChilds
    rw [hflat]
    simp only [defaultConf, Bool.not_true]
  rw [hshape]
  refine ⟨h3.1, ?_, ?_⟩
  · have a1 := h1.2.1
    have a2 := h2.2.1
    have a3 := h3.2.1
    simp only [nsizeL] at a1 a2 a3
    omega
  · intro k
    cases k with
    | ktext =>
        refine h3.2.2.2 CombK.ktext (by decide) ?_
        have hk3 : List.Chain' (noPair CombK.ktext)
            (((cs.map F).foldl (combineStep F false CombK.ktext) []).foldl
              (combineStep F false CombK.kitalic) []) :=
          h2.2.2.2 CombK.ktext (by decide) (by simpa using h1.2.2.1)
        simpa using hk3
    | kitalic =>
        refine h3.2.2.2 CombK.kitalic (by decide) ?_
        simpa using h2.2.2.1
    | kbold => exact h3.2.2.1

/-- One optimizer pass (default configuration, sufficient fuel) on a clean
tree produces a normal form. -/
theorem optimizeF_norm (n : Nat) : ∀ (t : Node) (ctx : Ctx) (f : Nat),
    nsize t ≤ n → Clean ctx t → nsize t ≤ f →
    Opt ctx (optimizeF f defaultConf ctx t) := by
  induction n using Nat.strong_induction_on with
  | _ n ih =>
      intro t ctx f hn hclean hf
      cases t with
      | text s => cases f <;> exact Opt.text _ _
      | sentence cs =>
          obtain ⟨f', rfl⟩ : ∃ f', f = f' + 1 :=
            ⟨f - 1, by have := nsize_pos (Node.sentence cs); omega⟩
          have hcl : ∀ c ∈ cs, Clean ctx c := by
            cases hclean with
            | sentence _ _ h => exact h
          have hszcs : nsizeL cs ≤ f' := by simp only [nsize] at hf; omega
          have hlt : nsizeL cs < n := by simp only [nsize] at hn; omega
          have h := optChilds_norm ctx (optimizeF f' defaultConf ctx) (nsizeL cs)
            (fun x hcx hsx => ih (nsizeL cs) hlt x ctx f' hsx hcx (hsx.trans hszcs))
            (optimizeF_nsize f' defaultConf ctx)
            (fun x j => optimizeF_isCK f' defaultConf ctx x j)
            (fun x => optimizeF_flagged f' defaultConf ctx ctx x)
            cs hcl le_rfl
          exact Opt.sentence ctx _ (fun c hc => (h.1 c hc).1)
            (fun c hc => (h.1 c hc).2) h.2.2
      | italic cs =>
          obtain ⟨f', rfl⟩ : ∃ f', f = f' + 1 :=
            ⟨f - 1, by have := nsize_pos (Node.italic cs); omega⟩
          have hcl : ∀ c ∈ cs, Clean { ctx with italic := true } c := by
            cases hclean with
            | italic _ _ _ h => exact h
          have hszcs : nsizeL cs ≤ f' := by simp only [nsize] at hf; omega
          have hlt : nsizeL cs < n := by simp only [nsize] at hn; omega
          have h := optChilds_norm { ctx with italic := true }
            (optimizeF f' defaultConf { ctx with italic := true }) (nsizeL cs)
            (fun x hcx hsx =>
              ih (nsizeL cs) hlt x { ctx with italic := true } f' hsx hcx
                (hsx.trans hszcs))
            (optimizeF_nsize f' defaultConf { ctx with italic := true })
            (fun x j => optimizeF_isCK f' defaultConf { ctx with italic := true } x j)
            (fun x => optimizeF_flagged f' defaultConf { ctx with italic := true }
              { ctx with italic := true } x)
            cs hcl le_rfl
          exact Opt.italic ctx _ (fun c hc => (h.1 c hc).1)
            (fun c hc => (h.1 c hc).2) h.2.2
      | bold cs =>
          obtain ⟨f', rfl⟩ : ∃ f', f = f' + 1 :=
            ⟨f - 1, by have := nsize_pos (Node.bold cs); omega⟩
          have hcl : ∀ c ∈ cs, Clean { ctx with bold := true } c := by
            cases hclean with
            | bold _ _ _ h => exact h
          have hszcs : nsizeL cs ≤ f' := by simp only [nsize] at hf; omega
          have hlt : nsizeL cs < n := by simp only [nsize] at hn; omega
          have h := optChilds_norm { ctx with bold := true }
            (optimizeF f' defaultConf { ctx with bold := true }) (nsizeL cs)
            (fun x hcx hsx =>
              ih (nsizeL cs) hlt x { ctx with bold := true } f' hsx hcx
                (hsx.trans hszcs))
            (optimizeF_nsize f' defaultConf { ctx with bold := true })
            (fun x j => optimizeF_isCK f' defaultConf { ctx with bold := true } x j)
            (fun x => optimizeF_flagged f' defaultConf { ctx with bold := true }
              { ctx with bold := true } x)
            cs hcl le_rfl
          exact Opt.bold ctx _ (fun c hc => (h.1 c hc).1)
            (fun c hc => (h.1 c hc).2) h.2.2
      | link tg cs =>
          obtain ⟨f', rfl⟩ : ∃ f', f = f' + 1 :=
            ⟨f - 1, by have := nsize_pos (Node.link tg cs); omega⟩
          have hcl : ∀ c ∈ cs, Clean { ctx with link := true } c := by
            cases hclean with
            | link _ _ _ _ h => exact h
          have hszcs : nsizeL cs ≤ f' := by simp only [nsize] at hf; omega
          have hlt : nsizeL cs < n := by simp only [nsize] at hn; omega
          have h := optChilds_norm { ctx with link := true }
            (optimizeF f' defaultConf { ctx with link := true }) (nsizeL cs)
            (fun x hcx hsx =>
              ih (nsizeL cs) hlt x { ctx with link := true } f' hsx hcx
                (hsx.trans hszcs))
            (optimizeF_nsize f' defaultConf { ctx with link := true })
            (fun x j => optimizeF_isCK f' defaultConf { ctx with link := true } x j)
            (fun x => optimizeF_flagged f' defaultConf { ctx with link := true }
              { ctx with link := true } x)
            cs hcl le_rfl
          exact Opt.link ctx tg _ (fun c hc => (h.1 c hc).1)
            (fun c hc => (h.1 c hc).2) h.2.2

/-- C3 amended: with the default all-true flags, `optimize` is idempotent on
every tree without same-kind nesting (no Link, Italic or Bold node with an
ancestor of the same kind).  In general idempotence fails — see
`C3_counterexample`: the flatten pass removes only one level of direct
same-kind nesting per pass. -/
theorem C3_optimize_idempotent_on_clean (t : Node) (h : Clean ctx0 t) :
    optimize (optimize t) = optimize t := by
  have h1 : Opt ctx0 (optimize t) :=
    optimizeF_norm (nsize t) t ctx0 (nsize t) le_rfl h le_rfl
  exact optimizeF_stab h1 (nsize (optimize t)) le_rfl

/-- Witness for C3 amended: a clean tree, `Bold[Text b]`, on which a second
optimize pass changes nothing. -/
theorem C3_optimize_idempotent_on_clean_witness :
    optimize (optimize (Node.bold [Node.text ['b']])) =
      optimize (Node.bold [Node.text ['b']]) :=
  C3_optimize_idempotent_on_clean (Node.bold [Node.text ['b']])
    (Clean.bold ctx0 [Node.text ['b']] rfl (fun c hc => by
      simp only [List.mem_singleton] at hc
      subst hc
      exact Clean.text _ _))
